import Mathlib

/-!
Verification of the caching-fetch library (`src/caching-fetch-library/cachingFetch.ts`).

The development embeds, in order:
1.  a model of JSON values (`Json`) together with executable models of the
    runtime collaborators `JSON.stringify` (`renderV`) and `JSON.parse`
    (`jsonParse`), plus a proof that parsing inverts rendering;
2.  a model of the JavaScript `Map` used by `createCache` (`Store` with
    `mapGet`/`mapHas`/`mapSet` under SameValueZero key equality `keyEq`) and of
    the cache surface (`cacheGet`/`cacheHas`/`cacheSet`/`cacheClear`,
    `serializeStore`, `cacheInit` which models `initializeCache`, `wipeCache`);
3.  a model of `preloadCachingFetch`;
4.  a small operational model of the `useCachingFetch` hook: consumers with a
    React state cell and an `isMounted` flag, a global store, a log of calls to
    `fetch`, and a list of in-flight (pending) fetch operations, driven by the
    actions mount / run-effect / unmount / settle.

Modelling notes (restrictions of the embedding, each noted where used):
*   JSON numbers are modelled as arbitrary-precision integers (`Int`); float
    literals (fractions, exponents) and their formatting are outside the model.
*   Lean `Char` is a unicode scalar, so lone UTF-16 surrogates (which
    JavaScript strings admit) are outside the model.
*   An object produced by `JSON.parse` is modelled as its ordered field list;
    the last-duplicate-wins collapsing JavaScript applies to duplicate keys in
    a JSON text is not modelled (no claim depends on it).
-/

/-! ## JSON values

`Json`, `JList` and `JFields` form a mutual inductive so that structural
recursion and `decide`-style kernel evaluation work throughout. -/

mutual

inductive Json where
  | null
  | bool (b : Bool)
  | num (n : Int)
  | str (s : List Char)
  | arr (xs : JList)
  | obj (fs : JFields)
deriving DecidableEq

inductive JList where
  | nil
  | cons (hd : Json) (tl : JList)
deriving DecidableEq

inductive JFields where
  | nil
  | cons (k : List Char) (v : Json) (tl : JFields)
deriving DecidableEq

end

/-! ## Character helpers -/

/-- JSON whitespace, as accepted between tokens by `JSON.parse`. -/
def isWs (c : Char) : Bool := c = ' ' || c = '\n' || c = '\t' || c = '\r'

/-- Decimal digit test. -/
def isDigit (c : Char) : Bool := 48 ≤ c.toNat && c.toNat ≤ 57

/-- The digit character of `d < 10`. -/
def digitChar (d : Nat) : Char := Char.ofNat (48 + d)

/-- The numeric value of a digit character. -/
def digitVal (c : Char) : Nat := c.toNat - 48

/-- Lower-case hexadecimal digit character of `d < 16`, as produced by
`JSON.stringify` in `\u00XX` escapes. -/
def hexDigitChar (d : Nat) : Char :=
  if d < 10 then Char.ofNat (48 + d) else Char.ofNat (87 + d)

/-- Value of a hexadecimal digit character (upper or lower case), if it is one. -/
def hexVal (c : Char) : Option Nat :=
  if 48 ≤ c.toNat && c.toNat ≤ 57 then some (c.toNat - 48)
  else if 97 ≤ c.toNat && c.toNat ≤ 102 then some (c.toNat - 87)
  else if 65 ≤ c.toNat && c.toNat ≤ 70 then some (c.toNat - 55)
  else none

/-- Drop leading JSON whitespace. -/
def skipWs : List Char → List Char
  | [] => []
  | c :: cs => if isWs c then skipWs cs else c :: cs

/-- Split off the longest leading run of decimal digits. -/
def takeDigits : List Char → List Char × List Char
  | [] => ([], [])
  | c :: cs =>
    if isDigit c then
      let p := takeDigits cs
      (c :: p.1, p.2)
    else ([], c :: cs)

/-- The number denoted by a digit run (most significant digit first). -/
def digitsToNat (ds : List Char) : Nat :=
  ds.foldl (fun acc c => acc * 10 + digitVal c) 0

/-- Decimal digit characters of `n`, most significant first; structural on a
fuel argument so that the kernel can evaluate it (`natToChars` supplies enough
fuel). -/
def natChars : Nat → Nat → List Char
  | 0, _ => []
  | fuel + 1, n =>
    if n < 10 then [digitChar n]
    else natChars fuel (n / 10) ++ [digitChar (n % 10)]

/-- Decimal digit characters of `n`, most significant first. -/
def natToChars (n : Nat) : List Char := natChars (n + 1) n

/-- Decimal rendering of an integer: optional minus sign, then digits. -/
def intChars (i : Int) : List Char :=
  (if i < 0 then ['-'] else []) ++ natToChars i.natAbs

/-! ## Rendering: the model of `JSON.stringify`

`JSON.stringify` is the platform collaborator `serialize` defers to
(`JSON.stringify(Array.from(cache.entries()))`).  It emits no whitespace,
escapes `"` and `\` and the common control characters by name, and any other
control character as `\u00XX`. -/

/-- One character of string content, JSON-escaped. -/
def escapeChar (c : Char) : List Char :=
  if c = '"' then ['\\', '"']
  else if c = '\\' then ['\\', '\\']
  else if c = '\n' then ['\\', 'n']
  else if c = '\r' then ['\\', 'r']
  else if c = '\t' then ['\\', 't']
  else if c = '\x08' then ['\\', 'b']
  else if c = '\x0c' then ['\\', 'f']
  else if c.toNat < 32 then
    let hi := hexDigitChar (c.toNat / 16)
    let lo := hexDigitChar (c.toNat % 16)
    '\\' :: 'u' :: '0' :: '0' :: hi :: [lo]
  else [c]

/-- JSON-escape a whole string content. -/
def escapeChars : List Char → List Char
  | [] => []
  | c :: cs => escapeChar c ++ escapeChars cs

/-- A rendered string literal: quote, escaped content, quote. -/
def renderStr (s : List Char) : List Char := '"' :: escapeChars s ++ ['"']

mutual

/-- Render a JSON value the way `JSON.stringify` prints it (no whitespace). -/
def renderV : Json → List Char
  | .null => "null".data
  | .bool true => "true".data
  | .bool false => "false".data
  | .num n => intChars n
  | .str s => renderStr s
  | .arr xs => '[' :: renderL xs ++ [']']
  | .obj fs => '\x7b' :: renderF fs ++ ['\x7d']

/-- Render array elements, comma-separated. -/
def renderL : JList → List Char
  | .nil => []
  | .cons x .nil => renderV x
  | .cons x (.cons y tl) => renderV x ++ ',' :: renderL (.cons y tl)

/-- Render object fields, comma-separated. -/
def renderF : JFields → List Char
  | .nil => []
  | .cons k v .nil => renderStr k ++ ':' :: renderV v
  | .cons k v (.cons k2 v2 tl) =>
    renderStr k ++ ':' :: renderV v ++ ',' :: renderF (.cons k2 v2 tl)

end

/-! ## Parsing: the model of `JSON.parse` -/

/-- Translate a single-character JSON escape. -/
def unescapeChar (c : Char) : Option Char :=
  if c = '"' then some '"'
  else if c = '\\' then some '\\'
  else if c = '/' then some '/'
  else if c = 'n' then some '\n'
  else if c = 'r' then some '\r'
  else if c = 't' then some '\t'
  else if c = 'b' then some '\x08'
  else if c = 'f' then some '\x0c'
  else none

/-- Combine four hexadecimal digits into a code point. -/
def hex4 (a b c d : Char) : Option Nat := do
  let x1 ← hexVal a
  let x2 ← hexVal b
  let x3 ← hexVal c
  let x4 ← hexVal d
  pure (((x1 * 16 + x2) * 16 + x3) * 16 + x4)

/-- Parse the body of a string literal, after the opening quote, up to and
including the closing quote; yields the content and the remaining input.
Unescaped control characters are rejected, as `JSON.parse` rejects them.
A `\uXXXX` escape denoting a lone surrogate is rejected (`Char` holds unicode
scalars only; a modelling restriction). -/
def parseStrBody : List Char → Option (List Char × List Char)
  | [] => none
  | c :: cs =>
    if c = '"' then some ([], cs)
    else if c = '\\' then
      match cs with
      | [] => none
      | 'u' :: h1 :: h2 :: h3 :: h4 :: cs2 =>
        match hex4 h1 h2 h3 h4 with
        | none => none
        | some n =>
          if n < 55296 then
            match parseStrBody cs2 with
            | some p => some (Char.ofNat n :: p.1, p.2)
            | none => none
          else none
      | e :: cs2 =>
        match unescapeChar e with
        | none => none
        | some c2 =>
          match parseStrBody cs2 with
          | some p => some (c2 :: p.1, p.2)
          | none => none
    else if c.toNat < 32 then none
    else
      match parseStrBody cs with
      | some p => some (c :: p.1, p.2)
      | none => none

/-- True when the input continues with something that could extend or malform a
just-parsed integer literal: another digit, a fraction, or an exponent. -/
def numCont : List Char → Bool
  | [] => false
  | c :: _ => isDigit c || c = '.' || c = 'e' || c = 'E'

/-- Parse the digits of a JSON integer literal, after an optional minus sign
already consumed (`neg`): a digit run, with the JSON rule that a leading zero
admits no further digits; a following fraction or exponent makes the literal
fall outside this integer-restricted model and is rejected. -/
def parseNumCore (neg : Bool) (cs : List Char) : Option (Int × List Char) :=
  match takeDigits cs with
  | ([], _) => none
  | ('0' :: _ :: _, _) => none
  | (ds, r) =>
    if numCont r then none
    else some (if neg then -(digitsToNat ds : Int) else (digitsToNat ds : Int), r)

/-- Parse a JSON integer literal (this model restricts JSON numbers to
integers): optional minus sign, then digits. -/
def parseNum : List Char → Option (Int × List Char)
  | '-' :: r => parseNumCore true r
  | cs => parseNumCore false cs

mutual

/-- Parse one JSON value (leading whitespace allowed); structural on `fuel`. -/
def parseVal : Nat → List Char → Option (Json × List Char)
  | 0, _ => none
  | fuel + 1, cs =>
    match skipWs cs with
    | 'n' :: 'u' :: 'l' :: 'l' :: r => some (.null, r)
    | 't' :: 'r' :: 'u' :: 'e' :: r => some (.bool true, r)
    | 'f' :: 'a' :: 'l' :: 's' :: 'e' :: r => some (.bool false, r)
    | '"' :: r =>
      match parseStrBody r with
      | some p => some (.str p.1, p.2)
      | none => none
    | '[' :: r =>
      match skipWs r with
      | [] => none
      | c :: r2 =>
        if c = ']' then some (.arr .nil, r2)
        else
          match parseItems fuel (c :: r2) with
          | some p => some (.arr p.1, p.2)
          | none => none
    | '\x7b' :: r =>
      match skipWs r with
      | [] => none
      | c :: r2 =>
        if c = '\x7d' then some (.obj .nil, r2)
        else
          match parseFields fuel (c :: r2) with
          | some p => some (.obj p.1, p.2)
          | none => none
    | c :: r =>
      if c = '-' || isDigit c then
        match parseNum (c :: r) with
        | some p => some (.num p.1, p.2)
        | none => none
      else none
    | [] => none

/-- Parse one or more comma-separated array elements and the closing bracket. -/
def parseItems : Nat → List Char → Option (JList × List Char)
  | 0, _ => none
  | fuel + 1, cs =>
    match parseVal fuel cs with
    | none => none
    | some p =>
      match skipWs p.2 with
      | ',' :: r2 =>
        match parseItems fuel r2 with
        | some q => some (.cons p.1 q.1, q.2)
        | none => none
      | ']' :: r2 => some (.cons p.1 .nil, r2)
      | _ => none

/-- Parse one or more comma-separated object fields and the closing brace. -/
def parseFields : Nat → List Char → Option (JFields × List Char)
  | 0, _ => none
  | fuel + 1, cs =>
    match skipWs cs with
    | '"' :: r =>
      match parseStrBody r with
      | none => none
      | some kp =>
        match skipWs kp.2 with
        | ':' :: r2 =>
          match parseVal fuel r2 with
          | none => none
          | some vp =>
            match skipWs vp.2 with
            | ',' :: r3 =>
              match parseFields fuel r3 with
              | some q => some (.cons kp.1 vp.1 q.1, q.2)
              | none => none
            | '\x7d' :: r3 => some (.cons kp.1 vp.1 .nil, r3)
            | _ => none
        | _ => none
    | _ => none

end

/-- The model of `JSON.parse`: parse one value, allow trailing whitespace,
reject trailing content; `none` models a thrown `SyntaxError`. -/
def jsonParse (s : List Char) : Option Json :=
  match parseVal (s.length + 1) s with
  | some p => if skipWs p.2 = [] then some p.1 else none
  | none => none

/-! ## Round trip of the codec, part 1: digit runs -/

theorem isDigit_digitChar {d : Nat} (h : d < 10) : isDigit (digitChar d) = true := by
  interval_cases d <;> decide

theorem digitVal_digitChar {d : Nat} (h : d < 10) : digitVal (digitChar d) = d := by
  interval_cases d <;> decide

theorem digitChar_ne_zero {d : Nat} (h1 : 1 ≤ d) (h2 : d < 10) : digitChar d ≠ '0' := by
  interval_cases d <;> decide

theorem isDigit_toNat {c : Char} (h : isDigit c = true) : 48 ≤ c.toNat ∧ c.toNat ≤ 57 := by
  simpa [isDigit] using h

theorem natChars_eq : ∀ f n, n < f → natChars f n = natToChars n := by
  intro f
  induction f using Nat.strong_induction_on with
  | _ f ih =>
    intro n hn
    match f, hn with
    | f + 1, hn =>
      by_cases h10 : n < 10
      · simp [natChars, natToChars, h10]
      · have hdiv : n / 10 < n := Nat.div_lt_self (by omega) (by omega)
        have hL : natChars (f + 1) n = natChars f (n / 10) ++ [digitChar (n % 10)] := by
          simp [natChars, h10]
        have hR : natChars (n + 1) n = natChars n (n / 10) ++ [digitChar (n % 10)] := by
          simp [natChars, h10]
        rw [natToChars, hL, hR, ih f (by omega) (n / 10) (by omega),
          ih n (by omega) (n / 10) (by omega)]

theorem natToChars_unfold (n : Nat) :
    natToChars n =
      if n < 10 then [digitChar n] else natToChars (n / 10) ++ [digitChar (n % 10)] := by
  by_cases h10 : n < 10
  · simp [natToChars, natChars, h10]
  · have hdiv : n / 10 < n := Nat.div_lt_self (by omega) (by omega)
    have : natToChars n = natChars n (n / 10) ++ [digitChar (n % 10)] := by
      simp [natToChars, natChars, h10]
    rw [this, natChars_eq n (n / 10) (by omega), if_neg h10]

theorem natToChars_ne_nil (n : Nat) : natToChars n ≠ [] := by
  rw [natToChars_unfold]
  split <;> simp

theorem natToChars_digits : ∀ n, ∀ c ∈ natToChars n, isDigit c = true := by
  intro n
  induction n using Nat.strong_induction_on with
  | _ n ih =>
    rw [natToChars_unfold]
    by_cases h10 : n < 10
    · simp only [if_pos h10, List.mem_singleton]
      rintro c rfl
      exact isDigit_digitChar h10
    · simp only [if_neg h10, List.mem_append, List.mem_singleton]
      rintro c (hc | rfl)
      · exact ih (n / 10) (Nat.div_lt_self (by omega) (by omega)) c hc
      · exact isDigit_digitChar (Nat.mod_lt _ (by omega))

theorem digitsToNat_natToChars : ∀ n, digitsToNat (natToChars n) = n := by
  intro n
  induction n using Nat.strong_induction_on with
  | _ n ih =>
    rw [natToChars_unfold]
    by_cases h10 : n < 10
    · simp [if_pos h10, digitsToNat, digitVal_digitChar h10]
    · have hdiv : n / 10 < n := Nat.div_lt_self (by omega) (by omega)
      have hmod : n % 10 < 10 := Nat.mod_lt _ (by omega)
      simp only [if_neg h10, digitsToNat, List.foldl_append, List.foldl_cons, List.foldl_nil]
      have : (natToChars (n / 10)).foldl (fun acc c => acc * 10 + digitVal c) 0 = n / 10 :=
        ih (n / 10) hdiv
      rw [this, digitVal_digitChar hmod]
      omega

theorem natToChars_head_pos : ∀ n, 1 ≤ n →
    ∃ c t, natToChars n = c :: t ∧ isDigit c = true ∧ c ≠ '0' := by
  intro n
  induction n using Nat.strong_induction_on with
  | _ n ih =>
    intro hn
    rw [natToChars_unfold]
    by_cases h10 : n < 10
    · exact ⟨digitChar n, [], by simp [h10], isDigit_digitChar h10, digitChar_ne_zero hn h10⟩
    · obtain ⟨c, t, hct, hd, hz⟩ :=
        ih (n / 10) (Nat.div_lt_self (by omega) (by omega)) (by omega)
      exact ⟨c, t ++ [digitChar (n % 10)], by simp [h10, hct], hd, hz⟩

theorem natToChars_no_leading_zero : ∀ n x xs, natToChars n ≠ '0' :: x :: xs := by
  intro n x xs h
  by_cases h10 : n < 10
  · rw [natToChars_unfold, if_pos h10] at h
    exact absurd (List.cons.inj h).2 (by simp)
  · obtain ⟨c, t, hct, _, hz⟩ := natToChars_head_pos n (by omega)
    rw [hct] at h
    exact hz (List.cons.inj h).1

theorem takeDigits_not_digit (c : Char) (t : List Char) (hnd : isDigit c = false) :
    takeDigits (c :: t) = ([], c :: t) := by
  rw [takeDigits, if_neg (by simp [hnd])]

theorem takeDigits_stop {cs : List Char} (h : numCont cs = false) :
    takeDigits cs = ([], cs) := by
  cases cs with
  | nil => rfl
  | cons c t =>
    refine takeDigits_not_digit c t ?_
    simp only [numCont, Bool.or_eq_false_iff] at h
    exact h.1.1.1

theorem takeDigits_run (digs tl : List Char) (hall : ∀ c ∈ digs, isDigit c = true)
    (hstop : takeDigits tl = ([], tl)) :
    takeDigits (digs ++ tl) = (digs, tl) := by
  induction digs with
  | nil =>
    rw [List.nil_append]
    exact hstop
  | cons c t ih =>
    rw [List.cons_append, takeDigits,
      if_pos (hall c (List.mem_cons_self c t)),
      ih fun x hx => hall x (List.mem_cons_of_mem c hx)]

theorem numCont_head {c : Char} {t : List Char} (h : numCont (c :: t) = false) :
    isDigit c = false ∧ c ≠ '.' ∧ c ≠ 'e' ∧ c ≠ 'E' := by
  simp only [numCont, Bool.or_eq_false_iff, decide_eq_false_iff_not] at h
  exact ⟨h.1.1.1, h.1.1.2, h.1.2, h.2⟩

theorem parseNumCore_run (n : Nat) (neg : Bool) (rest : List Char)
    (hr : numCont rest = false) :
    parseNumCore neg (natToChars n ++ rest)
      = some (if neg then -(n : Int) else (n : Int), rest) := by
  have htd : takeDigits (natToChars n ++ rest) = (natToChars n, rest) :=
    takeDigits_run _ _ (natToChars_digits n) (takeDigits_stop hr)
  rw [parseNumCore, htd]
  split
  · rename_i heq
    exact absurd (congrArg Prod.fst heq) (by simpa using natToChars_ne_nil n)
  · rename_i x xs _ heq
    have hfst : natToChars n = '0' :: x :: xs := by simpa using congrArg Prod.fst heq
    exact absurd hfst (natToChars_no_leading_zero n x xs)
  · rename_i heq
    obtain ⟨h1, h2⟩ := Prod.mk.inj heq.symm
    subst h1 h2
    rw [if_neg (by simp [hr]), digitsToNat_natToChars]

theorem natToChars_cons (n : Nat) :
    ∃ c t, natToChars n = c :: t ∧ isDigit c = true := by
  match h : natToChars n with
  | [] => exact absurd h (natToChars_ne_nil n)
  | c :: t =>
    exact ⟨c, t, rfl, natToChars_digits n c (h ▸ List.mem_cons_self c t)⟩

theorem digit_ne_minus {c : Char} (h : isDigit c = true) : c ≠ '-' := by
  rintro rfl
  exact absurd h (by decide)

theorem parseNum_minus (r : List Char) : parseNum ('-' :: r) = parseNumCore true r := rfl

theorem parseNum_cons {c : Char} {t : List Char} (h : c ≠ '-') :
    parseNum (c :: t) = parseNumCore false (c :: t) := by
  rw [parseNum.eq_def]
  split
  · rename_i r heq
    exact absurd (List.cons.inj heq).1 h
  · rfl

theorem parseNum_intChars (i : Int) (rest : List Char) (hr : numCont rest = false) :
    parseNum (intChars i ++ rest) = some (i, rest) := by
  by_cases hneg : i < 0
  · have hsh : intChars i ++ rest = '-' :: (natToChars i.natAbs ++ rest) := by
      simp [intChars, hneg]
    rw [hsh, parseNum_minus, parseNumCore_run _ _ _ hr, if_pos rfl]
    have h2 : -(i.natAbs : Int) = i := by omega
    rw [h2]
  · obtain ⟨c, t, hct, hd⟩ := natToChars_cons i.natAbs
    have hsh : intChars i ++ rest = c :: (t ++ rest) := by
      simp [intChars, hneg, hct]
    rw [hsh, parseNum_cons (digit_ne_minus hd),
      show c :: (t ++ rest) = natToChars i.natAbs ++ rest by simp [hct],
      parseNumCore_run _ _ _ hr, if_neg (by simp : ¬(false = true))]
    have h2 : (i.natAbs : Int) = i := by omega
    rw [h2]

/-! ## Round trip of the codec, part 2: string escapes -/

theorem hexVal_hexDigitChar {d : Nat} (h : d < 16) : hexVal (hexDigitChar d) = some d := by
  interval_cases d <;> decide

theorem parseStrBody_plain {c : Char} {t : List Char} (hq : c ≠ '"') (hb : c ≠ '\\')
    (hc : ¬c.toNat < 32) :
    parseStrBody (c :: t)
      = match parseStrBody t with
        | some p => some (c :: p.1, p.2)
        | none => none := by
  rw [parseStrBody.eq_def]
  simp only [if_neg hq, if_neg hb, if_neg hc]

theorem parseStrBody_escapeChar (c : Char) (t : List Char) :
    parseStrBody (escapeChar c ++ t)
      = match parseStrBody t with
        | some p => some (c :: p.1, p.2)
        | none => none := by
  by_cases h1 : c = '"'
  · subst h1
    cases hpt : parseStrBody t <;>
      (rw [show escapeChar '"' ++ t = '\\' :: '"' :: t from rfl, parseStrBody.eq_def]
       simp [unescapeChar, hpt])
  by_cases h2 : c = '\\'
  · subst h2
    cases hpt : parseStrBody t <;>
      (rw [show escapeChar '\\' ++ t = '\\' :: '\\' :: t from rfl, parseStrBody.eq_def]
       simp [unescapeChar, hpt])
  by_cases h3 : c = '\n'
  · subst h3
    cases hpt : parseStrBody t <;>
      (rw [show escapeChar '\n' ++ t = '\\' :: 'n' :: t from rfl, parseStrBody.eq_def]
       simp [unescapeChar, hpt])
  by_cases h4 : c = '\r'
  · subst h4
    cases hpt : parseStrBody t <;>
      (rw [show escapeChar '\r' ++ t = '\\' :: 'r' :: t from rfl, parseStrBody.eq_def]
       simp [unescapeChar, hpt])
  by_cases h5 : c = '\t'
  · subst h5
    cases hpt : parseStrBody t <;>
      (rw [show escapeChar '\t' ++ t = '\\' :: 't' :: t from rfl, parseStrBody.eq_def]
       simp [unescapeChar, hpt])
  by_cases h6 : c = '\x08'
  · subst h6
    cases hpt : parseStrBody t <;>
      (rw [show escapeChar '\x08' ++ t = '\\' :: 'b' :: t from rfl, parseStrBody.eq_def]
       simp [unescapeChar, hpt])
  by_cases h7 : c = '\x0c'
  · subst h7
    cases hpt : parseStrBody t <;>
      (rw [show escapeChar '\x0c' ++ t = '\\' :: 'f' :: t from rfl, parseStrBody.eq_def]
       simp [unescapeChar, hpt])
  by_cases h8 : c.toNat < 32
  · have hesc : escapeChar c
        = '\\' :: 'u' :: '0' :: '0' :: hexDigitChar (c.toNat / 16)
          :: [hexDigitChar (c.toNat % 16)] := by
      simp [escapeChar, h1, h2, h3, h4, h5, h6, h7, h8]
    have hx1 : hexVal (hexDigitChar (c.toNat / 16)) = some (c.toNat / 16) :=
      hexVal_hexDigitChar (by omega)
    have hx2 : hexVal (hexDigitChar (c.toNat % 16)) = some (c.toNat % 16) :=
      hexVal_hexDigitChar (by omega)
    have hx0 : hexVal '0' = some 0 := by decide
    have hh : hex4 '0' '0' (hexDigitChar (c.toNat / 16)) (hexDigitChar (c.toNat % 16))
        = some c.toNat := by
      simp only [hex4, hx0, hx1, hx2, Option.bind_eq_bind, Option.some_bind, Option.pure_def]
      exact congrArg some (by omega)
    have hlt : c.toNat < 55296 := by omega
    rw [hesc]
    cases hpt : parseStrBody t <;>
      (simp only [List.cons_append, List.singleton_append]
       rw [parseStrBody.eq_def]
       simp [hh, hlt, hpt, Char.ofNat_toNat])
  · have hesc : escapeChar c = [c] := by
      simp [escapeChar, h1, h2, h3, h4, h5, h6, h7, h8]
    rw [hesc, List.singleton_append, parseStrBody_plain h1 h2 h8]

theorem parseStrBody_run : ∀ (s : List Char) (rest : List Char),
    parseStrBody (escapeChars s ++ '"' :: rest) = some (s, rest) := by
  intro s
  induction s with
  | nil =>
    intro rest
    rw [escapeChars, List.nil_append, parseStrBody.eq_def]
    simp
  | cons c cs ih =>
    intro rest
    rw [escapeChars, List.append_assoc, parseStrBody_escapeChar, ih rest]

/-! ## Round trip of the codec, part 3: whole values -/

theorem isDigit_facts {c : Char} (h : isDigit c = true) :
    isWs c = false ∧ c ≠ ']' ∧ c ≠ '\x7d' ∧ c ≠ ',' ∧ c ≠ 'n' ∧ c ≠ 't' ∧ c ≠ 'f'
      ∧ c ≠ '"' ∧ c ≠ '[' ∧ c ≠ '\x7b' := by
  refine ⟨?_, ?_, ?_, ?_, ?_, ?_, ?_, ?_, ?_, ?_⟩
  · simp only [isWs, Bool.or_eq_false_iff, decide_eq_false_iff_not]
    refine ⟨⟨⟨?_, ?_⟩, ?_⟩, ?_⟩ <;> (rintro rfl; exact absurd h (by decide))
  all_goals (rintro rfl; exact absurd h (by decide))

theorem renderL_expand (x : Json) (xs : JList) :
    ∃ t2, renderL (.cons x xs) = renderV x ++ t2 := by
  cases xs with
  | nil => exact ⟨[], by simp [renderL]⟩
  | cons y tl => exact ⟨',' :: renderL (.cons y tl), by simp [renderL]⟩

theorem renderV_head (j : Json) :
    ∃ c t, renderV j = c :: t ∧ isWs c = false ∧ c ≠ ']' ∧ c ≠ '\x7d' ∧ c ≠ ',' := by
  cases j with
  | null => exact ⟨'n', _, rfl, by decide⟩
  | bool b =>
    cases b with
    | true => exact ⟨'t', _, rfl, by decide⟩
    | false => exact ⟨'f', _, rfl, by decide⟩
  | str s => exact ⟨'"', escapeChars s ++ ['"'], by simp [renderV, renderStr], by decide⟩
  | arr xs => exact ⟨'[', renderL xs ++ [']'], by simp [renderV], by decide⟩
  | obj fs => exact ⟨'\x7b', renderF fs ++ ['\x7d'], by simp [renderV], by decide⟩
  | num n =>
    by_cases hn : n < 0
    · exact ⟨'-', natToChars n.natAbs, by simp [renderV, intChars, hn], by decide⟩
    · obtain ⟨c, t, hct, hd⟩ := natToChars_cons n.natAbs
      obtain ⟨hws, hbr, hbc, hcm, _⟩ := isDigit_facts hd
      exact ⟨c, t, by simp [renderV, intChars, hn, hct], hws, hbr, hbc, hcm⟩

theorem skipWs_not_ws {c : Char} {t : List Char} (h : isWs c = false) :
    skipWs (c :: t) = c :: t := by
  simp [skipWs, h]

theorem numCont_bracket (t : List Char) : numCont (']' :: t) = false := rfl

theorem numCont_brace (t : List Char) : numCont ('\x7d' :: t) = false := rfl

theorem numCont_comma (t : List Char) : numCont (',' :: t) = false := rfl

theorem parseVal_null (f : Nat) (r : List Char) :
    parseVal (f + 1) ('n' :: 'u' :: 'l' :: 'l' :: r) = some (.null, r) := rfl

theorem parseVal_true (f : Nat) (r : List Char) :
    parseVal (f + 1) ('t' :: 'r' :: 'u' :: 'e' :: r) = some (.bool true, r) := rfl

theorem parseVal_false (f : Nat) (r : List Char) :
    parseVal (f + 1) ('f' :: 'a' :: 'l' :: 's' :: 'e' :: r) = some (.bool false, r) := rfl

theorem parseVal_arrNil (f : Nat) (r : List Char) :
    parseVal (f + 1) ('[' :: ']' :: r) = some (.arr .nil, r) := rfl

theorem parseVal_objNil (f : Nat) (r : List Char) :
    parseVal (f + 1) ('\x7b' :: '\x7d' :: r) = some (.obj .nil, r) := rfl

theorem parseVal_quote (f : Nat) (r s rest : List Char)
    (h : parseStrBody r = some (s, rest)) :
    parseVal (f + 1) ('"' :: r) = some (.str s, rest) := by
  rw [parseVal.eq_def]
  simp [skipWs, h, show isWs '"' = false from by decide]

theorem parseVal_arrCons (f : Nat) (c : Char) (r2 : List Char) (xs : JList)
    (rest : List Char) (hws : isWs c = false) (hne : c ≠ ']')
    (h : parseItems f (c :: r2) = some (xs, rest)) :
    parseVal (f + 1) ('[' :: c :: r2) = some (.arr xs, rest) := by
  rw [parseVal.eq_def]
  simp [skipWs, hws, hne, h, show isWs '[' = false from by decide]

theorem parseVal_objCons (f : Nat) (c : Char) (r2 : List Char) (fs : JFields)
    (rest : List Char) (hws : isWs c = false) (hne : c ≠ '\x7d')
    (h : parseFields f (c :: r2) = some (fs, rest)) :
    parseVal (f + 1) ('\x7b' :: c :: r2) = some (.obj fs, rest) := by
  rw [parseVal.eq_def]
  simp [skipWs, hws, hne, h, show isWs '\x7b' = false from by decide]

theorem parseVal_other (f : Nat) (c : Char) (t : List Char) (hws : isWs c = false)
    (h1 : c ≠ 'n') (h2 : c ≠ 't') (h3 : c ≠ 'f') (h4 : c ≠ '"') (h5 : c ≠ '[')
    (h6 : c ≠ '\x7b') (i : Int) (rest : List Char)
    (hg : (decide (c = '-') || isDigit c) = true)
    (hpn : parseNum (c :: t) = some (i, rest)) :
    parseVal (f + 1) (c :: t) = some (.num i, rest) := by
  rw [parseVal.eq_def]
  simp only [skipWs, hws, Bool.false_eq_true, if_false]
  split
  · rename_i heq
    exact absurd (List.cons.inj heq).1 h1
  · rename_i heq
    exact absurd (List.cons.inj heq).1 h2
  · rename_i heq
    exact absurd (List.cons.inj heq).1 h3
  · rename_i heq
    exact absurd (List.cons.inj heq).1 h4
  · rename_i heq
    exact absurd (List.cons.inj heq).1 h5
  · rename_i heq
    exact absurd (List.cons.inj heq).1 h6
  · rename_i heq
    have h9 := (List.cons.inj heq).1
    have h10 := (List.cons.inj heq).2
    subst h9
    subst h10
    rw [if_pos hg]
    simp [hpn]
  · rename_i heq
    exact absurd heq (by simp)

theorem renderF_head (k : List Char) (v : Json) (fs : JFields) :
    ∃ t2, renderF (.cons k v fs) = '"' :: t2 := by
  cases fs with
  | nil => exact ⟨escapeChars k ++ ['"'] ++ ':' :: renderV v, by simp [renderF, renderStr]⟩
  | cons k2 v2 tl =>
    exact ⟨escapeChars k ++ ['"'] ++ ':' :: (renderV v ++ ',' :: renderF (.cons k2 v2 tl)),
      by simp [renderF, renderStr]⟩

mutual

theorem rt_val : ∀ (j : Json) (fuel : Nat) (rest : List Char),
    (renderV j).length < fuel → numCont rest = false →
    parseVal fuel (renderV j ++ rest) = some (j, rest)
  | .null, fuel, rest, hf, _ => by
    cases fuel with
    | zero => exact absurd hf (Nat.not_lt_zero _)
    | succ f => exact parseVal_null f rest
  | .bool true, fuel, rest, hf, _ => by
    cases fuel with
    | zero => exact absurd hf (Nat.not_lt_zero _)
    | succ f => exact parseVal_true f rest
  | .bool false, fuel, rest, hf, _ => by
    cases fuel with
    | zero => exact absurd hf (Nat.not_lt_zero _)
    | succ f => exact parseVal_false f rest
  | .num n, fuel, rest, hf, hr => by
    cases fuel with
    | zero => exact absurd hf (Nat.not_lt_zero _)
    | succ f =>
      by_cases hn : n < 0
      · have hpn := parseNum_intChars n rest hr
        have hsh : intChars n ++ rest = '-' :: (natToChars n.natAbs ++ rest) := by
          simp [intChars, hn]
        rw [hsh] at hpn
        have hmain := parseVal_other f '-' (natToChars n.natAbs ++ rest) (by decide)
          (by decide) (by decide) (by decide) (by decide) (by decide) (by decide)
          n rest (by decide) hpn
        rw [show renderV (.num n) ++ rest = '-' :: (natToChars n.natAbs ++ rest) from by
          simp [renderV, intChars, hn]]
        exact hmain
      · obtain ⟨c, tx, hct, hd⟩ := natToChars_cons n.natAbs
        obtain ⟨hws2, _, _, _, hn5, hn6, hn7, hn8, hn9, hn10⟩ := isDigit_facts hd
        have hpn := parseNum_intChars n rest hr
        have hsh : intChars n ++ rest = c :: (tx ++ rest) := by
          simp [intChars, hn, hct]
        rw [hsh] at hpn
        have hmain := parseVal_other f c (tx ++ rest) hws2 hn5 hn6 hn7 hn8 hn9 hn10
          n rest (by simp [hd]) hpn
        rw [show renderV (.num n) ++ rest = c :: (tx ++ rest) from by
          simp [renderV, intChars, hn, hct]]
        exact hmain
  | .str s, fuel, rest, hf, _ => by
    cases fuel with
    | zero => exact absurd hf (Nat.not_lt_zero _)
    | succ f =>
      rw [show renderV (.str s) ++ rest = '"' :: (escapeChars s ++ '"' :: rest) from by
        simp [renderV, renderStr]]
      exact parseVal_quote f _ s rest (parseStrBody_run s rest)
  | .arr .nil, fuel, rest, hf, _ => by
    cases fuel with
    | zero => exact absurd hf (Nat.not_lt_zero _)
    | succ f =>
      rw [show renderV (.arr .nil) ++ rest = '[' :: ']' :: rest from by
        simp [renderV, renderL]]
      exact parseVal_arrNil f rest
  | .arr (.cons x xs), fuel, rest, hf, _ => by
    cases fuel with
    | zero => exact absurd hf (Nat.not_lt_zero _)
    | succ f =>
      have hlen : (renderL (.cons x xs)).length + 1 < f := by
        simp only [renderV, List.length_cons, List.length_append, List.length_singleton] at hf
        omega
      obtain ⟨t3, ht3⟩ := renderL_expand x xs
      obtain ⟨c, tx, hctx, hcws, hcbr, _, _⟩ := renderV_head x
      have hform : renderL (.cons x xs) ++ ']' :: rest = c :: (tx ++ (t3 ++ ']' :: rest)) := by
        rw [ht3, hctx]
        simp
      have hitems := rt_items x xs f rest hlen
      rw [hform] at hitems
      rw [show renderV (.arr (.cons x xs)) ++ rest
          = '[' :: (c :: (tx ++ (t3 ++ ']' :: rest))) from by
        rw [← hform]
        simp [renderV]]
      exact parseVal_arrCons f c _ _ rest hcws hcbr hitems
  | .obj .nil, fuel, rest, hf, _ => by
    cases fuel with
    | zero => exact absurd hf (Nat.not_lt_zero _)
    | succ f =>
      rw [show renderV (.obj .nil) ++ rest = '\x7b' :: '\x7d' :: rest from by
        simp [renderV, renderF]]
      exact parseVal_objNil f rest
  | .obj (.cons k v fs), fuel, rest, hf, _ => by
    cases fuel with
    | zero => exact absurd hf (Nat.not_lt_zero _)
    | succ f =>
      have hlen : (renderF (.cons k v fs)).length + 1 < f := by
        simp only [renderV, List.length_cons, List.length_append, List.length_singleton] at hf
        omega
      obtain ⟨t2, ht2⟩ := renderF_head k v fs
      have hform : renderF (.cons k v fs) ++ '\x7d' :: rest = '"' :: (t2 ++ '\x7d' :: rest) := by
        rw [ht2]
        simp
      have hfields := rt_fields k v fs f rest hlen
      rw [hform] at hfields
      rw [show renderV (.obj (.cons k v fs)) ++ rest
          = '\x7b' :: ('"' :: (t2 ++ '\x7d' :: rest)) from by
        rw [← hform]
        simp [renderV]]
      exact parseVal_objCons f '"' _ _ rest (by decide) (by decide) hfields
termination_by j _ _ _ _ => sizeOf j

theorem rt_items : ∀ (x : Json) (xs : JList) (fuel : Nat) (rest : List Char),
    (renderL (.cons x xs)).length + 1 < fuel →
    parseItems fuel (renderL (.cons x xs) ++ ']' :: rest) = some (.cons x xs, rest)
  | x, .nil, fuel, rest, hf => by
    cases fuel with
    | zero => exact absurd hf (Nat.not_lt_zero _)
    | succ f =>
      have hlen : (renderV x).length < f := by
        simp only [renderL] at hf
        omega
      have hv := rt_val x f (']' :: rest) hlen (numCont_bracket rest)
      rw [show renderL (.cons x .nil) ++ ']' :: rest = renderV x ++ ']' :: rest from by
        simp [renderL]]
      rw [parseItems.eq_def]
      simp [hv, skipWs, show isWs ']' = false from by decide]
  | x, .cons y tl, fuel, rest, hf => by
    cases fuel with
    | zero => exact absurd hf (Nat.not_lt_zero _)
    | succ f =>
      have hsh : renderL (.cons x (.cons y tl)) = renderV x ++ ',' :: renderL (.cons y tl) := by
        simp [renderL]
      have hlenx : (renderV x).length < f := by
        rw [hsh] at hf
        simp only [List.length_append, List.length_cons] at hf
        omega
      have hlent : (renderL (.cons y tl)).length + 1 < f := by
        rw [hsh] at hf
        simp only [List.length_append, List.length_cons] at hf
        omega
      have hv := rt_val x f (',' :: (renderL (.cons y tl) ++ ']' :: rest)) hlenx
        (numCont_comma _)
      have hrec := rt_items y tl f rest hlent
      rw [show renderL (.cons x (.cons y tl)) ++ ']' :: rest
          = renderV x ++ ',' :: (renderL (.cons y tl) ++ ']' :: rest) from by
        simp [hsh]]
      rw [parseItems.eq_def]
      simp [hv, hrec, skipWs, show isWs ',' = false from by decide]
termination_by x xs _ _ _ => sizeOf x + sizeOf xs

theorem rt_fields : ∀ (k : List Char) (v : Json) (fs : JFields) (fuel : Nat) (rest : List Char),
    (renderF (.cons k v fs)).length + 1 < fuel →
    parseFields fuel (renderF (.cons k v fs) ++ '\x7d' :: rest) = some (.cons k v fs, rest)
  | k, v, .nil, fuel, rest, hf => by
    cases fuel with
    | zero => exact absurd hf (Nat.not_lt_zero _)
    | succ f =>
      have hlen : (renderV v).length < f := by
        simp only [renderF, renderStr, List.length_append, List.length_cons] at hf
        omega
      have hv := rt_val v f ('\x7d' :: rest) hlen (numCont_brace rest)
      rw [show renderF (.cons k v .nil) ++ '\x7d' :: rest
          = '"' :: (escapeChars k ++ '"' :: (':' :: (renderV v ++ '\x7d' :: rest))) from by
        simp [renderF, renderStr]]
      rw [parseFields.eq_def]
      simp [parseStrBody_run, hv, skipWs, show isWs '"' = false from by decide,
        show isWs ':' = false from by decide, show isWs '\x7d' = false from by decide]
  | k, v, .cons k2 v2 tl, fuel, rest, hf => by
    cases fuel with
    | zero => exact absurd hf (Nat.not_lt_zero _)
    | succ f =>
      have hsh : renderF (.cons k v (.cons k2 v2 tl))
          = renderStr k ++ ':' :: renderV v ++ ',' :: renderF (.cons k2 v2 tl) := by
        simp [renderF]
      have hlenv : (renderV v).length < f := by
        rw [hsh] at hf
        simp only [List.length_append, List.length_cons] at hf
        omega
      have hlent : (renderF (.cons k2 v2 tl)).length + 1 < f := by
        rw [hsh] at hf
        simp only [List.length_append, List.length_cons] at hf
        omega
      have hv := rt_val v f (',' :: (renderF (.cons k2 v2 tl) ++ '\x7d' :: rest)) hlenv
        (numCont_comma _)
      have hrec := rt_fields k2 v2 tl f rest hlent
      rw [show renderF (.cons k v (.cons k2 v2 tl)) ++ '\x7d' :: rest
          = '"' :: (escapeChars k ++ '"'
            :: (':' :: (renderV v ++ ',' :: (renderF (.cons k2 v2 tl) ++ '\x7d' :: rest)))) from by
        simp [renderF, renderStr]]
      rw [parseFields.eq_def]
      simp [parseStrBody_run, hv, hrec, skipWs, show isWs '"' = false from by decide,
        show isWs ':' = false from by decide, show isWs ',' = false from by decide]
termination_by _ v fs _ _ _ => sizeOf v + sizeOf fs

end

/-- Parsing inverts rendering: the model of `JSON.parse` applied to the model
of `JSON.stringify` recovers the value exactly, for every JSON value. -/
theorem jsonParse_renderV (j : Json) : jsonParse (renderV j) = some j := by
  have h := rt_val j ((renderV j).length + 1) [] (by omega) rfl
  rw [List.append_nil] at h
  simp [jsonParse, h, skipWs]

/-! ## The Store: the JavaScript `Map` inside `createCache`

A `Store` is the insertion-ordered entry list of a JS `Map`.  Keys and values
are `Option Json`, where `none` models the JavaScript value `undefined`
(which `new Map(...)` can produce as a key or value from short entry arrays);
under normal cache operation keys are strings and values are JSON values.

Key equality is SameValueZero, restricted to the values reachable here: two
primitives are equal iff structurally equal; an array or object produced by
`JSON.parse` is a fresh reference, so a reference-typed key never equals any
other key in the decoded entry list (object identity is modelled as: never
equal).  The model has no NaN (numbers are integers), so SameValueZero and
strict equality coincide on primitives. -/

abbrev Store := List (Option Json × Option Json)

/-- Is this JS value reference-typed (array or object)? -/
def isRefType : Option Json → Bool
  | some (.arr _) => true
  | some (.obj _) => true
  | _ => false

/-- SameValueZero key comparison for parse-produced values (see above). -/
def keyEq (a b : Option Json) : Bool :=
  if isRefType a || isRefType b then false else a = b

/-- `Map.prototype.has`. -/
def mapHas (st : Store) (k : Option Json) : Bool :=
  st.any fun e => keyEq e.1 k

/-- `Map.prototype.get`; `none` is `undefined`, returned when the key is
absent (and also when the stored value is itself `undefined`, as in JS). -/
def mapGet (st : Store) (k : Option Json) : Option Json :=
  match st.find? (fun e => keyEq e.1 k) with
  | some e => e.2
  | none => none

/-- `Map.prototype.set`: update in place, keeping position and original key,
or append a fresh entry. -/
def mapSet (st : Store) (k v : Option Json) : Store :=
  if mapHas st k then st.map fun e => if keyEq e.1 k then (e.1, v) else e
  else st ++ [(k, v)]

/-- A string key, as every key handed to the cache surface is. -/
def strKey (s : List Char) : Option Json := some (.str s)

/-- The `get` of `createCache` (string key at the API surface). -/
def cacheGet (st : Store) (url : List Char) : Option Json := mapGet st (strKey url)

/-- The `has` of `createCache`. -/
def cacheHas (st : Store) (url : List Char) : Bool := mapHas st (strKey url)

/-- The `set` of `createCache` (the cached value is always a JSON value,
produced by `response.json()` or carried over from deserialization). -/
def cacheSet (st : Store) (url : List Char) (v : Json) : Store :=
  mapSet st (strKey url) (some v)

/-- The `clear` of `createCache` (`cache.clear()`): removes every entry. -/
def cacheClear (_st : Store) : Store := []

/-- The `wipeCache` export: `cacheManager.clear()`. -/
def wipeCache (st : Store) : Store := cacheClear st

/-! ## serialize / initialize -/

/-- `JSON.stringify` renders `undefined` in an array slot as `null`. -/
def undefToNull : Option Json → Json
  | none => .null
  | some j => j

/-- The JSON value of `Array.from(cache.entries())`: an array of two-element
`[key, value]` arrays, in insertion order. -/
def storeEntries : Store → JList
  | [] => .nil
  | e :: st =>
    .cons (.arr (.cons (undefToNull e.1) (.cons (undefToNull e.2) .nil))) (storeEntries st)

/-- The `serialize` of `createCache`:
`JSON.stringify(Array.from(cache.entries()))`, also exported as
`serializeCache`. -/
def serializeStore (st : Store) : List Char := renderV (.arr (storeEntries st))

/-- Index into a JS array value; out-of-range access yields `undefined`. -/
def jlGet : JList → Nat → Option Json
  | .nil, _ => none
  | .cons x _, 0 => some x
  | .cons _ tl, n + 1 => jlGet tl n

/-- Property access `o[k]` on a parse-produced object: the last binding wins,
as `JSON.parse` keeps the last duplicate field. -/
def fieldGet : JFields → List Char → Option Json
  | .nil, _ => none
  | .cons k v tl, key =>
    match fieldGet tl key with
    | some r => some r
    | none => if k = key then some v else none

/-- One iterated element of the `new Map(...)` argument, as an entry:
an array contributes `(e[0], e[1])`; a plain object likewise via its `"0"`
and `"1"` properties; any other element raises a `TypeError`. -/
def entryOf : Json → Option (Option Json × Option Json)
  | .arr ys => some (jlGet ys 0, jlGet ys 1)
  | .obj fs => some (fieldGet fs ['0'], fieldGet fs ['1'])
  | _ => none

/-- Decode every element of a parsed JSON array into a `Map` entry. -/
def entriesOfJList : JList → Option (List (Option Json × Option Json))
  | .nil => some []
  | .cons y tl =>
    match entryOf y, entriesOfJList tl with
    | some e, some es => some (e :: es)
    | _, _ => none

/-- The entry list `new Map(x)` iterates, for a parse-produced `x`:
`null` yields an empty map (as does the empty string, an empty iterable);
an array yields its decoded entries; a nonempty string iterates characters
(which are not entry objects: `TypeError`); numbers, booleans and plain
objects are not iterable (`TypeError`).  `none` models the thrown
`TypeError`. -/
def entriesOfJson : Json → Option (List (Option Json × Option Json))
  | .null => some []
  | .str [] => some []
  | .str (_ :: _) => none
  | .arr ys => entriesOfJList ys
  | _ => none

/-- Build a `Map` from an entry list by repeated `Map.prototype.set`, as the
`new Map(iterable)` constructor does. -/
def storeOfEntries (es : List (Option Json × Option Json)) : Store :=
  es.foldl (fun acc e => mapSet acc e.1 e.2) []

/-- The error thrown by `new Map(JSON.parse(s))` when it fails: a
`SyntaxError` from `JSON.parse`, or a `TypeError` from the `Map`
constructor.  The spec calls both a DecodeError. -/
inductive InitErr where
  | syntaxErr
  | typeErr
deriving DecidableEq

/-- Parse a serialized cache string into the entry pairs `new Map` would
iterate: `JSON.parse` then the `Map` constructor's entry extraction. -/
def decodePairs (s : List Char) : Except InitErr (List (Option Json × Option Json)) :=
  match jsonParse s with
  | none => .error .syntaxErr
  | some j =>
    match entriesOfJson j with
    | none => .error .typeErr
    | some es => .ok es

/-- The `initialize` of `createCache` (exported as `initializeCache`):
`cache = new Map(JSON.parse(serializedCache))`.  The right-hand side is
evaluated first; if it throws, the assignment never happens and the store is
unchanged, with the error surfaced to the caller (second component). -/
def cacheInit (st : Store) (s : List Char) : Store × Option InitErr :=
  match decodePairs s with
  | .ok es => (storeOfEntries es, none)
  | .error e => (st, some e)

/-! ## HTTP responses and `preloadCachingFetch` -/

/-- What settling `fetch(url)` hands back in this model: the response status
and the body as a JSON value, `none` meaning `response.json()` rejects. -/
structure HttpResponse where
  status : Nat
  body : Option Json
deriving DecidableEq

/-- `response.ok`: status in the inclusive range 200–299. -/
def respOk (r : HttpResponse) : Bool := 200 ≤ r.status && r.status < 300

/-- A JavaScript `Error`, observed through its message. -/
structure JsError where
  message : List Char
deriving DecidableEq

/-- The error thrown on a non-success status:
`new Error(` backtick `HTTP error! status: ${response.status}` backtick `)`. -/
def httpError (status : Nat) : JsError :=
  ⟨"HTTP error! status: ".data ++ natToChars status⟩

/-- The rejection of `response.json()` on a non-JSON body (a `SyntaxError`;
its exact message is not modelled). -/
def jsonDecodeError : JsError := ⟨"Unexpected end of JSON input".data⟩

/-- The model of `preloadCachingFetch st url`, given the response the network
would produce: the settled result, the store afterwards, and whether a
network operation (`fetch`) was performed. -/
def preloadCachingFetch (st : Store) (url : List Char) (resp : HttpResponse) :
    Except JsError Unit × Store × Bool :=
  if cacheHas st url then (.ok (), st, false)
  else if respOk resp = false then (.error (httpError resp.status), st, true)
  else
    match resp.body with
    | some d => (.ok (), cacheSet st url d, true)
    | none => (.error jsonDecodeError, st, true)

/-! ## The reactive hook: an operational model of `useCachingFetch`

A `Consumer` is one mounted component instance using the hook: its `url`, the
React state cell `state` (initialized by `useState` to
`isLoading: true, data: null, error: null`), and the effect's `isMounted`
flag, cleared by the cleanup function on unmount.

A `Config` is a snapshot of the world: the shared `cacheManager` store, the
consumers, the list of in-flight fetch operations (consumer index and url),
and the log of urls passed to `fetch`, in call order.

The actions are: `mount` (first render: `useState` initializes the observable
state), `effect` (React runs the effect body after render), `unmount` (React
runs the cleanup), and `settle` (the fetch promise chain for a consumer's
in-flight operation runs with a given response). -/

/-- The observable state of one hook consumer; `data` is `Json.null` for the
JavaScript `null`. -/
structure HookState where
  isLoading : Bool
  data : Json
  error : Option JsError
deriving DecidableEq

/-- One mounted component instance using `useCachingFetch`. -/
structure Consumer where
  url : List Char
  state : HookState
  isMounted : Bool
deriving DecidableEq

/-- The world: store, consumers, in-flight fetches, and the `fetch` call log. -/
structure Config where
  store : Store
  consumers : List Consumer
  pending : List (Nat × List Char)
  fetchLog : List (List Char)
deriving DecidableEq

/-- The `useState` initial value: `{isLoading: true, data: null, error: null}`. -/
def initialState : HookState := ⟨true, .null, none⟩

/-- A world with a given store and no consumers. -/
def initConfig (st : Store) : Config := ⟨st, [], [], []⟩

/-- Replace the consumer at an index (out of range: no change). -/
def updAt : List Consumer → Nat → (Consumer → Consumer) → List Consumer
  | [], _, _ => []
  | c :: cs, 0, f => f c :: cs
  | c :: cs, n + 1, f => c :: updAt cs n f

/-- Mount a new consumer for `url`: the first render observes the `useState`
initial state; no effect has run yet. -/
def mountC (cfg : Config) (url : List Char) : Config :=
  { cfg with consumers := cfg.consumers ++ [⟨url, initialState, true⟩] }

/-- Run the effect body of `useCachingFetch` for consumer `i`: if the store
has the url, set the resolved state from the cache and return (no fetch);
otherwise reset to loading, call `fetch(url)` (logged, and registered as an
in-flight operation), with `isMounted = true`. -/
def runEffect (cfg : Config) (i : Nat) : Config :=
  match cfg.consumers.get? i with
  | none => cfg
  | some c =>
    if cacheHas cfg.store c.url then
      { cfg with
        consumers := updAt cfg.consumers i fun c2 =>
          { c2 with state := ⟨false, undefToNull (cacheGet cfg.store c.url), none⟩ } }
    else
      { cfg with
        consumers := updAt cfg.consumers i fun c2 =>
          { c2 with state := ⟨true, .null, none⟩, isMounted := true }
        pending := cfg.pending ++ [(i, c.url)]
        fetchLog := cfg.fetchLog ++ [c.url] }

/-- Unmount consumer `i`: React runs the effect cleanup, `isMounted = false`. -/
def unmountC (cfg : Config) (i : Nat) : Config :=
  { cfg with consumers := updAt cfg.consumers i fun c => { c with isMounted := false } }

/-- Remove the first in-flight operation of consumer `i`. -/
def removePending : List (Nat × List Char) → Nat → List (Nat × List Char)
  | [], _ => []
  | p :: ps, i => if p.1 = i then ps else p :: removePending ps i

/-- Settle the in-flight fetch of consumer `i` with `resp`, running the
promise chain of the effect body: on a non-success status the thrown error
reaches `.catch`; on success `response.json()` resolves (or rejects) and the
`.then` runs.  Both the store write and the state write are guarded by the
consumer's `isMounted` flag, exactly as in the source.  Without an in-flight
operation for `i` there is nothing to settle. -/
def settleFetch (cfg : Config) (i : Nat) (resp : HttpResponse) : Config :=
  if cfg.pending.any (fun p => p.1 = i) then
    let cfg2 := { cfg with pending := removePending cfg.pending i }
    match cfg.consumers.get? i with
    | none => cfg2
    | some c =>
      if c.isMounted then
        if respOk resp = false then
          { cfg2 with
            consumers := updAt cfg2.consumers i fun c2 =>
              { c2 with state := ⟨false, .null, some (httpError resp.status)⟩ } }
        else
          match resp.body with
          | some d =>
            { cfg2 with
              store := cacheSet cfg2.store c.url d
              consumers := updAt cfg2.consumers i fun c2 =>
                { c2 with state := ⟨false, d, none⟩ } }
          | none =>
            { cfg2 with
              consumers := updAt cfg2.consumers i fun c2 =>
                { c2 with state := ⟨false, .null, some jsonDecodeError⟩ } }
      else cfg2
  else cfg

/-- One scheduler action. -/
inductive Act where
  | mount (url : List Char)
  | effect (i : Nat)
  | unmount (i : Nat)
  | settle (i : Nat) (resp : HttpResponse)

/-- Apply one action. -/
def applyAct (cfg : Config) : Act → Config
  | .mount url => mountC cfg url
  | .effect i => runEffect cfg i
  | .unmount i => unmountC cfg i
  | .settle i resp => settleFetch cfg i resp

/-- Run a sequence of actions. -/
def runActs (cfg : Config) (acts : List Act) : Config := acts.foldl applyAct cfg

/-! ## Store lemmas -/

theorem isRefType_strKey (s : List Char) : isRefType (strKey s) = false := rfl

theorem keyEq_true_eq {a b : Option Json} (h : keyEq a b = true) : a = b := by
  unfold keyEq at h
  split at h
  · exact absurd h (by simp)
  · simpa using h

theorem keyEq_strKey (k k2 : List Char) :
    keyEq (strKey k) (strKey k2) = decide (k = k2) := by
  unfold keyEq
  rw [if_neg (by simp [isRefType_strKey])]
  simp [strKey]

theorem keyEq_strKey_ne {k k2 : List Char} (h : k ≠ k2) :
    keyEq (strKey k) (strKey k2) = false := by
  simp [keyEq_strKey, h]

theorem keyEq_of_eq_of_ne {a b : Option Json}
    (hab : keyEq a b = false) :
    ∀ e : Option Json × Option Json, keyEq e.1 b = true → keyEq e.1 a = false := by
  intro e he
  have hb := keyEq_true_eq he
  subst hb
  by_cases hba : keyEq e.1 a = true
  · have h2 := keyEq_true_eq hba
    subst h2
    exact absurd hab (by simp [he])
  · simpa using hba

theorem any_map_keyfix (st : Store) (a v b : Option Json) :
    ((st.map fun e => if keyEq e.1 a then (e.1, v) else e).any fun e => keyEq e.1 b)
      = st.any fun e => keyEq e.1 b := by
  induction st with
  | nil => rfl
  | cons e st ih =>
    simp only [List.map_cons, List.any_cons, ih]
    congr 1
    split <;> rfl

theorem find_map_keyfix (st : Store) (a v b : Option Json)
    (hkey : ∀ e : Option Json × Option Json, keyEq e.1 b = true → keyEq e.1 a = false) :
    ((st.map fun e => if keyEq e.1 a then (e.1, v) else e).find? fun e => keyEq e.1 b)
      = st.find? fun e => keyEq e.1 b := by
  induction st with
  | nil => rfl
  | cons e st ih =>
    by_cases hb : keyEq e.1 b = true
    · have ha : keyEq e.1 a = false := hkey e hb
      have hfe : (if keyEq e.1 a = true then (e.1, v) else e) = e := by simp [ha]
      simp only [List.map_cons, hfe]
      rw [@List.find?_cons_of_pos _ (fun x => keyEq x.1 b) e _ hb,
        @List.find?_cons_of_pos _ (fun x => keyEq x.1 b) e _ hb]
    · have hb2 : keyEq e.1 b = false := by simpa using hb
      have hfst : (if keyEq e.1 a = true then (e.1, v) else e).1 = e.1 := by
        split <;> rfl
      simp only [List.map_cons]
      rw [@List.find?_cons_of_neg _ (fun x => keyEq x.1 b)
          (if keyEq e.1 a = true then (e.1, v) else e) _ (by simp [hfst, hb2]),
        @List.find?_cons_of_neg _ (fun x => keyEq x.1 b) e _ (by simp [hb2])]
      exact ih

theorem find_append_nomatch (st : Store) (a v b : Option Json)
    (hab : keyEq a b = false) :
    ((st ++ [(a, v)]).find? fun e => keyEq e.1 b) = st.find? fun e => keyEq e.1 b := by
  induction st with
  | nil =>
    simp only [List.nil_append]
    rw [@List.find?_cons_of_neg _ (fun x => keyEq x.1 b) (a, v) _ (by simp [hab])]
  | cons e st ih =>
    by_cases hb : keyEq e.1 b = true
    · rw [List.cons_append,
        @List.find?_cons_of_pos _ (fun x => keyEq x.1 b) e _ hb,
        @List.find?_cons_of_pos _ (fun x => keyEq x.1 b) e _ hb]
    · have hb2 : keyEq e.1 b = false := by simpa using hb
      rw [List.cons_append,
        @List.find?_cons_of_neg _ (fun x => keyEq x.1 b) e _ (by simp [hb2]),
        @List.find?_cons_of_neg _ (fun x => keyEq x.1 b) e _ (by simp [hb2])]
      exact ih

theorem mapHas_mapSet_ne (st : Store) (a v b : Option Json) (hab : keyEq a b = false) :
    mapHas (mapSet st a v) b = mapHas st b := by
  unfold mapSet
  split
  · exact any_map_keyfix st a v b
  · simp [mapHas, List.any_append, hab]

theorem mapGet_mapSet_ne (st : Store) (a v b : Option Json) (hab : keyEq a b = false) :
    mapGet (mapSet st a v) b = mapGet st b := by
  unfold mapSet
  by_cases h : mapHas st a = true
  · rw [if_pos h]
    unfold mapGet
    rw [find_map_keyfix st a v b (keyEq_of_eq_of_ne hab)]
  · rw [if_neg h]
    unfold mapGet
    rw [find_append_nomatch st a v b hab]

/-- C9: after `wipeCache` (which runs `cache.clear()`), `has(K)` is false for
every previously present key K — wipe removes all entries from the Store. -/
theorem wipe_then_has_false (st : Store) (k : List Char) (_h : cacheHas st k = true) :
    cacheHas (wipeCache st) k = false := rfl

/-- Witness for C9 at a concrete store. -/
theorem wipe_then_has_false_witness :
    cacheHas [(strKey ['u'], some (Json.num 3))] ['u'] = true
      ∧ cacheHas (wipeCache [(strKey ['u'], some (Json.num 3))]) ['u'] = false :=
  ⟨by decide, wipe_then_has_false [(strKey ['u'], some (Json.num 3))] ['u'] (by decide)⟩

/-- C10: `set(K, v)` leaves every other key Kʹ untouched: `has(Kʹ)` and
`get(Kʹ)` return the same results after the set as before it. -/
theorem set_frame (st : Store) (k k2 : List Char) (v : Json) (h : k ≠ k2) :
    cacheHas (cacheSet st k v) k2 = cacheHas st k2
      ∧ cacheGet (cacheSet st k v) k2 = cacheGet st k2 := by
  have hab := keyEq_strKey_ne h
  exact ⟨mapHas_mapSet_ne st _ _ _ hab, mapGet_mapSet_ne st _ _ _ hab⟩

/-- Witness for C10 at a concrete store, both for a key being overwritten and
for a fresh key being appended. -/
theorem set_frame_witness :
    (['a'] : List Char) ≠ ['b']
      ∧ cacheHas (cacheSet [(strKey ['b'], some (Json.num 1))] ['a'] (Json.num 2)) ['b']
          = cacheHas [(strKey ['b'], some (Json.num 1))] ['b']
      ∧ cacheGet (cacheSet [(strKey ['b'], some (Json.num 1))] ['a'] (Json.num 2)) ['b']
          = cacheGet [(strKey ['b'], some (Json.num 1))] ['b'] :=
  ⟨by decide, (set_frame [(strKey ['b'], some (Json.num 1))] ['a'] ['b'] (Json.num 2)
      (by decide)).1,
    (set_frame [(strKey ['b'], some (Json.num 1))] ['a'] ['b'] (Json.num 2) (by decide)).2⟩

/-- C3: `initialize` (modelled by `cacheInit`) replaces the whole Store with
the decoded pairs when the string decodes (prior contents are discarded, not
merged: the result does not depend on the prior store), and on a string that
does not decode it surfaces the error to the caller and leaves the Store
completely unchanged. -/
theorem init_replace_or_unchanged (st : Store) (s : List Char) :
    (∀ es, decodePairs s = .ok es → cacheInit st s = (storeOfEntries es, none))
      ∧ ∀ e, decodePairs s = .error e → cacheInit st s = (st, some e) := by
  constructor
  · intro es h
    simp [cacheInit, h]
  · intro e h
    simp [cacheInit, h]

/-- Witness for C3: a valid pair-sequence replaces a nonempty store, and a
malformed string leaves the same store untouched while surfacing the error. -/
theorem init_replace_or_unchanged_witness :
    decodePairs "[[\"k\",1]]".data = .ok [(strKey ['k'], some (Json.num 1))]
      ∧ cacheInit [(strKey ['z'], some Json.null)] "[[\"k\",1]]".data
          = (storeOfEntries [(strKey ['k'], some (Json.num 1))], none)
      ∧ decodePairs "oops".data = .error .syntaxErr
      ∧ cacheInit [(strKey ['z'], some Json.null)] "oops".data
          = ([(strKey ['z'], some Json.null)], some .syntaxErr) :=
  ⟨rfl,
    (init_replace_or_unchanged [(strKey ['z'], some Json.null)] "[[\"k\",1]]".data).1
      [(strKey ['k'], some (Json.num 1))] rfl,
    rfl,
    (init_replace_or_unchanged [(strKey ['z'], some Json.null)] "oops".data).2
      .syntaxErr rfl⟩

/-- C4: `preloadCachingFetch` resolves immediately with no network operation
when the Store already has the key; otherwise it fetches, and on a
non-success status rejects with an error whose message contains the status
code (in decimal), leaving the Store without an entry for the key; on success
it writes the resolved body to the Store and resolves. -/
theorem preload_spec (st : Store) (url : List Char) (resp : HttpResponse) :
    (cacheHas st url = true →
      preloadCachingFetch st url resp = (.ok (), st, false))
      ∧ (cacheHas st url = false → respOk resp = false →
        preloadCachingFetch st url resp = (.error (httpError resp.status), st, true)
          ∧ natToChars resp.status <:+: (httpError resp.status).message
          ∧ cacheHas (preloadCachingFetch st url resp).2.1 url = false)
      ∧ ∀ d, cacheHas st url = false → respOk resp = true → resp.body = some d →
        preloadCachingFetch st url resp = (.ok (), cacheSet st url d, true) := by
  refine ⟨?_, ?_, ?_⟩
  · intro h
    simp [preloadCachingFetch, h]
  · intro h hbad
    refine ⟨by simp [preloadCachingFetch, h, hbad], ?_, ?_⟩
    · exact (List.suffix_append _ _).isInfix
    · simp [preloadCachingFetch, h, hbad]
  · intro d h hok hbody
    simp [preloadCachingFetch, h, hok, hbody]

/-- Witness for C4: all three branches at concrete inputs. -/
theorem preload_spec_witness :
    preloadCachingFetch [(strKey ['u'], some (Json.num 1))] ['u'] ⟨200, some (Json.num 2)⟩
        = (.ok (), [(strKey ['u'], some (Json.num 1))], false)
      ∧ preloadCachingFetch [] ['u'] ⟨404, none⟩ = (.error (httpError 404), [], true)
      ∧ natToChars 404 <:+: (httpError 404).message
      ∧ preloadCachingFetch [] ['u'] ⟨200, some (Json.num 2)⟩
          = (.ok (), cacheSet [] ['u'] (Json.num 2), true) :=
  ⟨(preload_spec [(strKey ['u'], some (Json.num 1))] ['u'] ⟨200, some (Json.num 2)⟩).1
      (by decide),
    ((preload_spec [] ['u'] ⟨404, none⟩).2.1 (by decide) (by decide)).1,
    ((preload_spec [] ['u'] ⟨404, none⟩).2.1 (by decide) (by decide)).2.1,
    (preload_spec [] ['u'] ⟨200, some (Json.num 2)⟩).2.2 (Json.num 2) (by decide) (by decide)
      rfl⟩

/-! ## Claims about the reactive hook -/

/-- The scenario for C5: one consumer mounts for an uncached key, its effect
starts a fetch, and the fetch settles with the given response. -/
def errScenario (st : Store) (url : List Char) (resp : HttpResponse) : Config :=
  settleFetch (runEffect (mountC (initConfig st) url) 0) 0 resp

/-- The follow-up for C5: afterwards a second consumer mounts for the same
key and its effect runs. -/
def errRetry (st : Store) (url : List Char) (resp : HttpResponse) : Config :=
  runEffect (mountC (errScenario st url resp) url) 1

/-- C5: when the fetch for an uncached key settles with a non-success status,
the consumer observes `isLoading = false`, `data = null` and a non-null error
(the HTTP status error); the key is still absent from the Store (the error is
not cached); and a subsequent fetch request for the key starts a new network
operation (the fetch log grows). -/
theorem fetch_error_not_cached (st : Store) (url : List Char) (resp : HttpResponse)
    (habs : cacheHas st url = false) (hbad : respOk resp = false) :
    (errScenario st url resp).consumers
        = [⟨url, ⟨false, .null, some (httpError resp.status)⟩, true⟩]
      ∧ cacheHas (errScenario st url resp).store url = false
      ∧ (errRetry st url resp).fetchLog = (errScenario st url resp).fetchLog ++ [url] := by
  have h1 : mountC (initConfig st) url = ⟨st, [⟨url, initialState, true⟩], [], []⟩ := by
    simp [mountC, initConfig]
  have h2 : runEffect (mountC (initConfig st) url) 0
      = ⟨st, [⟨url, ⟨true, .null, none⟩, true⟩], [(0, url)], [url]⟩ := by
    rw [h1]
    simp [runEffect, habs, updAt]
  have h3 : errScenario st url resp
      = ⟨st, [⟨url, ⟨false, .null, some (httpError resp.status)⟩, true⟩], [], [url]⟩ := by
    rw [errScenario, h2]
    simp [settleFetch, removePending, hbad, updAt]
  refine ⟨by rw [h3], by rw [h3]; exact habs, ?_⟩
  have h4 : mountC (errScenario st url resp) url
      = ⟨st, [⟨url, ⟨false, .null, some (httpError resp.status)⟩, true⟩,
          ⟨url, initialState, true⟩], [], [url]⟩ := by
    rw [h3]
    simp [mountC]
  rw [errRetry, h4, h3]
  simp [runEffect, habs, updAt]

/-- Witness for C5 at a concrete store, key, and 404 response. -/
theorem fetch_error_not_cached_witness :
    cacheHas [] ['u'] = false ∧ respOk ⟨404, none⟩ = false
      ∧ (errScenario [] ['u'] ⟨404, none⟩).consumers
          = [⟨['u'], ⟨false, .null, some (httpError 404)⟩, true⟩]
      ∧ cacheHas (errScenario [] ['u'] ⟨404, none⟩).store ['u'] = false
      ∧ (errRetry [] ['u'] ⟨404, none⟩).fetchLog
          = (errScenario [] ['u'] ⟨404, none⟩).fetchLog ++ [['u']] :=
  ⟨by decide, by decide,
    (fetch_error_not_cached [] ['u'] ⟨404, none⟩ (by decide) (by decide)).1,
    (fetch_error_not_cached [] ['u'] ⟨404, none⟩ (by decide) (by decide)).2.1,
    (fetch_error_not_cached [] ['u'] ⟨404, none⟩ (by decide) (by decide)).2.2⟩

/-- The C1 failing input: two reactive consumers request the same key while
the store is empty, and both effects run before either fetch settles. -/
def c1Config : Config :=
  runActs (initConfig []) [.mount ['u'], .effect 0, .mount ['u'], .effect 1]

/-- C1 (evaluation of the code at the failing input): the hook has no request
coordinator, so each consumer's effect misses the cache and calls `fetch`
itself — two network operations are started for the key and two in-flight
operations for it exist at once, where the claim demands exactly one. -/
theorem c1_two_fetches :
    c1Config.fetchLog = [['u'], ['u']]
      ∧ (c1Config.pending.filter fun p => p.2 = ['u']).length = 2 := by decide

/-- The C6 failing input: the store already has the key (value 7) when a
consumer subscribes. -/
def c6Store : Store := [(strKey ['u'], some (Json.num 7))]

/-- The C6 configurations: right after mount (the first render), and after
the effect has run. -/
def c6Mount : Config := mountC (initConfig c6Store) ['u']

/-- The C6 configuration after the effect. -/
def c6After : Config := runEffect c6Mount 0

/-- C6 (evaluation of the code at the failing input): on the first render the
consumer observes the `useState` initial value `isLoading = true` — a Loading
state — even though the key is cached, because the cache is only read inside
the effect, which runs after the render.  After the effect the state is
Resolved with the cached value and no network operation was performed (that
part of the claim holds). -/
theorem c6_loading_observed :
    (c6Mount.consumers.get? 0).map (fun c => c.state) = some ⟨true, .null, none⟩
      ∧ (c6After.consumers.get? 0).map (fun c => c.state) = some ⟨false, .num 7, none⟩
      ∧ c6After.fetchLog = [] ∧ c6After.pending = [] := by decide

/-- The C7 counterexample input: a consumer mounts for an uncached key, its
fetch starts, the consumer unmounts, and then the fetch resolves successfully
with value 5. -/
def c7Config : Config :=
  settleFetch (unmountC (runEffect (mountC (initConfig []) ['u']) 0) 0) 0
    ⟨200, some (Json.num 5)⟩

/-- Counterexample to C7: the fetch did start (it is logged) and settled
successfully after disposal, yet the key is absent from the Store — the
store write sits inside the `isMounted` guard, so it is suppressed along
with the state update, where the claim says the Store write still happens. -/
theorem c7_counterexample :
    c7Config.fetchLog = [['u']]
      ∧ cacheHas c7Config.store ['u'] = false
      ∧ (c7Config.consumers.get? 0).map (fun c => c.state) = some initialState := by decide

/-- C7 as amended: if the subscription is disposed before settlement, the
`isMounted` guard suppresses the Store write together with the subscriber's
state update — settling changes neither the store nor any consumer state
(only the in-flight bookkeeping), and the fetch itself was not cancelled. -/
theorem settle_after_dispose_no_write (cfg : Config) (i : Nat) (resp : HttpResponse)
    (c : Consumer) (hc : cfg.consumers.get? i = some c) (hm : c.isMounted = false) :
    (settleFetch cfg i resp).store = cfg.store
      ∧ (settleFetch cfg i resp).consumers = cfg.consumers
      ∧ (settleFetch cfg i resp).fetchLog = cfg.fetchLog := by
  unfold settleFetch
  by_cases hp : cfg.pending.any (fun p => p.1 = i)
  · have hc2 : cfg.consumers[i]? = some c := by
      rw [← List.get?_eq_getElem?]
      exact hc
    simp [hp, hc2, hm]
  · simp [hp]

/-- Witness for the amended C7 at the counterexample input. -/
theorem settle_after_dispose_no_write_witness :
    ((unmountC (runEffect (mountC (initConfig []) ['u']) 0) 0).consumers.get? 0
        = some ⟨['u'], ⟨true, .null, none⟩, false⟩)
      ∧ c7Config.store = (unmountC (runEffect (mountC (initConfig []) ['u']) 0) 0).store
      ∧ c7Config.consumers
          = (unmountC (runEffect (mountC (initConfig []) ['u']) 0) 0).consumers :=
  ⟨by decide,
    (settle_after_dispose_no_write (unmountC (runEffect (mountC (initConfig []) ['u']) 0) 0)
      0 ⟨200, some (Json.num 5)⟩ ⟨['u'], ⟨true, .null, none⟩, false⟩ (by decide) rfl).1,
    (settle_after_dispose_no_write (unmountC (runEffect (mountC (initConfig []) ['u']) 0) 0)
      0 ⟨200, some (Json.num 5)⟩ ⟨['u'], ⟨true, .null, none⟩, false⟩ (by decide) rfl).2.1⟩

/-- The property C8 claims of an observable state: once `isLoading` is false,
exactly one of `data` / `error` is non-null (JS `null` is `Json.null` for
`data` and `none` for `error`). -/
def exactlyOneOf (s : HookState) : Prop :=
  s.isLoading = false →
    ((s.data ≠ Json.null ∧ s.error = none) ∨ (s.data = Json.null ∧ s.error ≠ none))

/-- Counterexample to C8: preloading a body whose JSON value is `null`
populates the store with a null value through the public surface; a consumer
subscribing to that key then observes `isLoading = false, data = null,
error = null` — both fields null — violating the claimed exactly-one
invariant. -/
theorem c8_counterexample :
    (preloadCachingFetch [] ['u'] ⟨200, some Json.null⟩).2.1
        = [(strKey ['u'], some Json.null)]
      ∧ ((runEffect (mountC (initConfig [(strKey ['u'], some Json.null)]) ['u'])
            0).consumers.get? 0).map (fun c => c.state)
          = some ⟨false, Json.null, none⟩
      ∧ ¬exactlyOneOf ⟨false, Json.null, none⟩ := by
  refine ⟨by decide, by decide, fun h => ?_⟩
  rcases h rfl with ⟨hd, _⟩ | ⟨_, he⟩
  · exact hd rfl
  · exact he rfl

/-- Membership after an `updAt`: either an untouched element, or the update
of an element of the original list. -/
theorem mem_updAt {cs : List Consumer} {f : Consumer → Consumer} {c : Consumer} :
    ∀ {i : Nat}, c ∈ updAt cs i f → c ∈ cs ∨ ∃ c2 ∈ cs, c = f c2 := by
  induction cs with
  | nil => intro i h; simp [updAt] at h
  | cons e cs ih =>
    intro i h
    cases i with
    | zero =>
      simp only [updAt] at h
      rcases List.mem_cons.mp h with h | h
      · exact .inr ⟨e, List.mem_cons_self e cs, h⟩
      · exact .inl (List.mem_cons_of_mem _ h)
    | succ n =>
      simp only [updAt] at h
      rcases List.mem_cons.mp h with h | h
      · exact .inl (h ▸ List.mem_cons_self e cs)
      · rcases ih h with h | ⟨c2, hc2, hf⟩
        · exact .inl (List.mem_cons_of_mem _ h)
        · exact .inr ⟨c2, List.mem_cons_of_mem _ hc2, hf⟩

/-- The invariant behind the amended C8: a consumer state never carries a
non-null error together with non-null data. -/
def neverBoth (s : HookState) : Prop := s.error ≠ none → s.data = Json.null

theorem applyAct_neverBoth (cfg : Config) (a : Act)
    (h : ∀ c ∈ cfg.consumers, neverBoth c.state) :
    ∀ c ∈ (applyAct cfg a).consumers, neverBoth c.state := by
  cases a with
  | mount url =>
    intro c hc
    simp only [applyAct, mountC, List.mem_append, List.mem_singleton] at hc
    rcases hc with hc | rfl
    · exact h c hc
    · exact fun he => absurd rfl he
  | effect i =>
    intro c hc
    simp only [applyAct, runEffect] at hc
    split at hc
    · exact h c hc
    · split at hc
      · rcases mem_updAt hc with hm | ⟨c2, hc2, rfl⟩
        · exact h c hm
        · exact fun he => absurd rfl he
      · rcases mem_updAt hc with hm | ⟨c2, hc2, rfl⟩
        · exact h c hm
        · exact fun he => absurd rfl he
  | unmount i =>
    intro c hc
    simp only [applyAct, unmountC] at hc
    rcases mem_updAt hc with hm | ⟨c2, hc2, rfl⟩
    · exact h c hm
    · exact h c2 hc2
  | settle i resp =>
    intro c hc
    simp only [applyAct, settleFetch] at hc
    split at hc
    · split at hc
      · exact h c hc
      · split at hc
        · split at hc
          · rcases mem_updAt hc with hm | ⟨c2, hc2, rfl⟩
            · exact h c hm
            · exact fun _ => rfl
          · split at hc
            · rcases mem_updAt hc with hm | ⟨c2, hc2, rfl⟩
              · exact h c hm
              · exact fun he => absurd rfl he
            · rcases mem_updAt hc with hm | ⟨c2, hc2, rfl⟩
              · exact h c hm
              · exact fun _ => rfl
        · exact h c hc
    · exact h c hc

/-- C8 as amended: in every configuration the hook can reach from a fresh
world over any store — any sequence of mounts, effect runs, unmounts and
settlements — no consumer ever observes `data` and `error` both non-null;
at most one is non-null, and both may be null (the counterexample shows the
cached JSON `null`). -/
theorem hook_states_never_both (st : Store) (acts : List Act) :
    ∀ c ∈ (runActs (initConfig st) acts).consumers,
      ¬(c.state.data ≠ Json.null ∧ c.state.error ≠ none) := by
  have main : ∀ (as : List Act) (cfg : Config), (∀ c ∈ cfg.consumers, neverBoth c.state) →
      ∀ c ∈ (runActs cfg as).consumers, neverBoth c.state := by
    intro as
    induction as with
    | nil => intro cfg h; exact h
    | cons a as ih =>
      intro cfg h
      exact ih _ (applyAct_neverBoth cfg a h)
  intro c hc hboth
  have hbase : ∀ c2 ∈ (initConfig st).consumers, neverBoth c2.state := by
    intro c2 hc2
    simp [initConfig] at hc2
  exact hboth.1 (main acts _ hbase c hc hboth.2)

/-- Witness for the amended C8 at a concrete reachable configuration: one
consumer mounts, its effect fetches, and the fetch resolves with value 3. -/
theorem hook_states_never_both_witness :
    (⟨['u'], ⟨false, Json.num 3, none⟩, true⟩ : Consumer)
        ∈ (runActs (initConfig [])
            [.mount ['u'], .effect 0, .settle 0 ⟨200, some (Json.num 3)⟩]).consumers
      ∧ ¬((Json.num 3 : Json) ≠ Json.null ∧ (none : Option JsError) ≠ none) :=
  ⟨by decide,
    hook_states_never_both [] [.mount ['u'], .effect 0, .settle 0 ⟨200, some (Json.num 3)⟩]
      ⟨['u'], ⟨false, Json.num 3, none⟩, true⟩ (by decide)⟩

/-! ## C2: round trip of serialize followed by initialize -/

theorem entriesOfJList_storeEntries (st : Store)
    (hdef : ∀ e ∈ st, e.1 ≠ none ∧ e.2 ≠ none) :
    entriesOfJList (storeEntries st) = some st := by
  induction st with
  | nil => rfl
  | cons e st ih =>
    obtain ⟨h1, h2⟩ := hdef e (List.mem_cons_self e st)
    obtain ⟨k, hk⟩ := Option.ne_none_iff_exists'.mp h1
    obtain ⟨v, hv⟩ := Option.ne_none_iff_exists'.mp h2
    have ih2 := ih fun x hx => hdef x (List.mem_cons_of_mem _ hx)
    simp only [storeEntries, entriesOfJList, entryOf, jlGet, ih2, hk, hv, undefToNull]
    rw [← hk, ← hv]

theorem mapHas_nil (k : Option Json) : mapHas [] k = false := rfl

theorem foldl_mapSet_fresh :
    ∀ (es : List (Option Json × Option Json)) (acc : Store),
      (∀ e ∈ es, mapHas acc e.1 = false) →
      List.Pairwise (fun a b => keyEq a.1 b.1 = false) es →
      es.foldl (fun acc2 e => mapSet acc2 e.1 e.2) acc = acc ++ es := by
  intro es
  induction es with
  | nil =>
    intro acc _ _
    simp
  | cons e es ih =>
    intro acc hfresh hsep
    have he : mapHas acc e.1 = false := hfresh e (List.mem_cons_self e es)
    have hset : mapSet acc e.1 e.2 = acc ++ [e] := by
      unfold mapSet
      rw [if_neg (by simp [he])]
    obtain ⟨hhead, hsep2⟩ := List.pairwise_cons.mp hsep
    have hfresh2 : ∀ x ∈ es, mapHas (acc ++ [e]) x.1 = false := by
      intro x hx
      have h1 : mapHas acc x.1 = false := hfresh x (List.mem_cons_of_mem _ hx)
      have h2 : keyEq e.1 x.1 = false := hhead x hx
      have happ : mapHas (acc ++ [e]) x.1 = (mapHas acc x.1 || keyEq e.1 x.1) := by
        simp [mapHas, List.any_append]
      rw [happ, h1, h2]
      rfl
    rw [List.foldl_cons, hset, ih (acc ++ [e]) hfresh2 hsep2]
    simp

theorem storeOfEntries_id (st : Store)
    (hsep : List.Pairwise (fun a b => keyEq a.1 b.1 = false) st) :
    storeOfEntries st = st := by
  unfold storeOfEntries
  rw [foldl_mapSet_fresh st [] (fun e _ => mapHas_nil e.1) hsep]
  simp

theorem decodePairs_serialize (st : Store)
    (hdef : ∀ e ∈ st, e.1 ≠ none ∧ e.2 ≠ none) :
    decodePairs (serializeStore st) = .ok st := by
  unfold decodePairs serializeStore
  rw [jsonParse_renderV]
  simp only [entriesOfJson]
  rw [entriesOfJList_storeEntries st hdef]

/-- C2: for every Store whose keys and values are JSON-representable (no
`undefined` slots; reference-typed keys cannot repeat — all stores built by
the cache operations satisfy both) and whose keys are pairwise distinct,
feeding `serialize`'s output to `initialize` (modelled: `cacheInit` on any
prior store) reproduces the Store exactly — entry for entry, in the same
insertion order — so `has(K)` and `get(K)` agree with the pre-serialization
Store for every key K. -/
theorem serialize_init_round_trip (st st0 : Store)
    (hdef : ∀ e ∈ st, e.1 ≠ none ∧ e.2 ≠ none)
    (hsep : List.Pairwise (fun a b => keyEq a.1 b.1 = false) st) :
    cacheInit st0 (serializeStore st) = (st, none)
      ∧ (∀ k, cacheHas (cacheInit st0 (serializeStore st)).1 k = cacheHas st k)
      ∧ (∀ k, cacheGet (cacheInit st0 (serializeStore st)).1 k = cacheGet st k) := by
  have h : cacheInit st0 (serializeStore st) = (st, none) := by
    unfold cacheInit
    rw [decodePairs_serialize st hdef]
    show (storeOfEntries st, none) = (st, none)
    rw [storeOfEntries_id st hsep]
  exact ⟨h, fun k => by rw [h], fun k => by rw [h]⟩

/-- Witness for C2: a two-entry store with a number and a null value survives
the round trip through an unrelated prior store. -/
theorem serialize_init_round_trip_witness :
    cacheInit [(strKey ['z'], some (Json.bool true))]
        (serializeStore [(strKey ['k'], some (Json.num 1)), (strKey ['a'], some Json.null)])
      = ([(strKey ['k'], some (Json.num 1)), (strKey ['a'], some Json.null)], none) :=
  (serialize_init_round_trip
    [(strKey ['k'], some (Json.num 1)), (strKey ['a'], some Json.null)]
    [(strKey ['z'], some (Json.bool true))]
    (by decide) (by decide)).1
